import Mathlib

/- Shallow embedding of the scoring and text-processing core of
`src/streamlit_app.py` (keyword-analyzer).  Python floats are modelled by
exact reals where a logarithm occurs and by rationals elsewhere; Python
integers by naturals.  pandas/NumPy arithmetic, whose division by zero
silently yields an infinity or NaN instead of raising, is modelled by the
type `Fl` below. -/

namespace KeywordAnalyzer

/-- A video record as assembled by `search_videos_by_keyword`
(src/streamlit_app.py lines 99-107). -/
structure Video where
  id : String
  title : String
  channelTitle : String
  publishedAt : String
  viewCount : ℕ
  likeCount : ℕ
  commentCount : ℕ
deriving DecidableEq

/-- Per-record engagement ratio, loop body of `calculate_spread_coefficient`
(lines 126-128): `0`, overwritten by `min(0.45, (likes+comments)/views)`
when `view_count > 0`. -/
def engagement (v : Video) : ℚ :=
  if 0 < v.viewCount then
    min (45/100) (((v.likeCount : ℚ) + (v.commentCount : ℚ)) / (v.viewCount : ℚ))
  else 0

/-- Per-record weighted views (line 130): `view_count * (1 + engagement)`. -/
def weighted_views (v : Video) : ℚ := (v.viewCount : ℚ) * (1 + engagement v)

/-- The accumulation loop of `calculate_spread_coefficient` (lines 117-132);
the state is `(total_weighted, total_views)`. -/
def spreadFold (videos : List Video) : ℚ × ℕ :=
  videos.foldl (fun acc v => (acc.1 + weighted_views v, acc.2 + v.viewCount)) (0, 0)

/-- The piecewise logarithmic mapping of `calculate_spread_coefficient`
(lines 137-142). -/
noncomputable def spreadScore (x : ℝ) : ℝ :=
  if x ≤ 1000 then 0
  else if 5000000 ≤ x then 10
  else (Real.logb 10 x - 3) * (10 / (Real.logb 10 5000000 - 3))

/-- `calculate_spread_coefficient` (lines 113-144).  Returns the tuple
`(spread_coefficient, avg_weighted, total_views, avg_views)`; the empty
input short-circuits to `(0.0, 0.0, 0, 0.0)` (lines 114-115). -/
noncomputable def calculate_spread_coefficient (videos : List Video) : ℝ × ℚ × ℕ × ℚ :=
  if videos = [] then (0, 0, 0, 0)
  else
    let acc := spreadFold videos
    let avg_weighted : ℚ := acc.1 / (videos.length : ℚ)
    let avg_views : ℚ := (acc.2 : ℚ) / (videos.length : ℚ)
    (spreadScore (avg_weighted : ℝ), avg_weighted, acc.2, avg_views)

/-- Guarded rational division: Python raises `ZeroDivisionError` when the
denominator is zero, modelled as `none`. -/
def safeDivQ (a b : ℚ) : Option ℚ := if b = 0 then none else some (a / b)

/-- Guarded base-10 logarithm: `math.log10` raises `ValueError` on a
nonpositive argument, modelled as `none`. -/
noncomputable def safeLog10 (x : ℝ) : Option ℝ :=
  if x ≤ 0 then none else some (Real.logb 10 x)

/-- The mapping of lines 137-142 with every partial operation guarded,
to witness that no guard can fire. -/
noncomputable def spreadScoreChecked (x : ℝ) : Option ℝ :=
  if x ≤ 1000 then some 0
  else if 5000000 ≤ x then some 10
  else do
    let lx ← safeLog10 x
    let lm ← safeLog10 5000000
    pure ((lx - 3) * (10 / (lm - 3)))

/-- The engagement computation (lines 126-128) with the division guarded. -/
def engagementChecked (v : Video) : Option ℚ :=
  if 0 < v.viewCount then
    (safeDivQ ((v.likeCount : ℚ) + (v.commentCount : ℚ)) (v.viewCount : ℚ)).map
      (fun r => min (45/100) r)
  else some 0

/-- `calculate_spread_coefficient` with every partial operation (the two
divisions of lines 128, 134-135 and the logarithms of line 142) guarded. -/
noncomputable def calculate_spread_coefficient_checked (videos : List Video) :
    Option (ℝ × ℚ × ℕ × ℚ) :=
  if videos = [] then some (0, 0, 0, 0)
  else do
    let acc ← videos.foldlM
      (fun (acc : ℚ × ℕ) v => (engagementChecked v).map
        (fun e => (acc.1 + (v.viewCount : ℚ) * (1 + e), acc.2 + v.viewCount))) ((0 : ℚ), (0 : ℕ))
    let avg_weighted ← safeDivQ acc.1 (videos.length : ℚ)
    let avg_views ← safeDivQ (acc.2 : ℚ) (videos.length : ℚ)
    let sc ← spreadScoreChecked (avg_weighted : ℝ)
    pure (sc, avg_weighted, acc.2, avg_views)

/-- A pandas/NumPy float value: finite, a signed infinity, or NaN.
NumPy division by zero produces `inf`/`ninf`/`nan` silently. -/
inductive Fl where
  | fin : ℚ → Fl
  | inf : Fl
  | ninf : Fl
  | nan : Fl
deriving DecidableEq

/-- NumPy float division of finite operands. -/
def flDiv (a b : ℚ) : Fl :=
  if b = 0 then (if 0 < a then .inf else if a < 0 then .ninf else .nan)
  else .fin (a / b)

/-- NumPy multiplication of a float by the positive literal `100`. -/
def flMul100 : Fl → Fl
  | .fin q => .fin (q * 100)
  | .inf => .inf
  | .ninf => .ninf
  | .nan => .nan

/-- pandas `Series.max()` over a ratio column.  On an empty series pandas
returns NaN, which the surrounding Python `max(0, ·)` of line 220 leaves at
the accumulator value `0`, so `0` is the faithful stand-in for the one call
site, `calculate_absolute_index`. -/
def seriesMax : List ℚ → ℚ
  | [] => 0
  | x :: xs => xs.foldl max x

/-- `calculate_absolute_index` (lines 217-222): fold `ref_max` over the
reference series starting from `0`, then map `(ratio / ref_max) * 100` over
the main series.  No degenerate input is checked: a zero `ref_max` flows
into the division. -/
def calculate_absolute_index (main_data : List ℚ) (ref_data_list : List (List ℚ)) : List Fl :=
  let ref_max := ref_data_list.foldl (fun acc r => max acc (seriesMax r)) 0
  main_data.map (fun x => flMul100 (flDiv x ref_max))

/-- `calculate_bti` (lines 224-225). -/
def calculate_bti (naver_abs_index : List Fl) : List Fl := naver_abs_index

/-- pandas `DataFrame.tail(n)`: the last `n` rows. -/
def pdTail (xs : List ℚ) (n : ℕ) : List ℚ := xs.drop (xs.length - n)

/-- pandas `Series.mean()`.  On an empty series pandas returns NaN; the
rational version below returns `0` there, so theorems about means only ever
apply it to nonempty lists. -/
def seriesMean (xs : List ℚ) : ℚ := xs.sum / (xs.length : ℚ)

/-- `calculate_combined_index` (lines 227-230).  The averaging window is
`tail(len(bti_df))`, i.e. always the entire series: the function takes no
window parameter. -/
def calculate_combined_index (sc_value : ℚ) (bti_df : List ℚ) : ℚ :=
  let avg_bti := seriesMean (pdTail bti_df bti_df.length)
  (sc_value * 10 + avg_bti) / 2

/-- Modelled from the spec (section 4.5): the mean of the absolute index
over the last `window` points, or over all points if fewer exist. -/
def windowMeanSpec (xs : List ℚ) (window : ℕ) : ℚ :=
  seriesMean (xs.drop (xs.length - window))

/-- The Hangul-syllable character class `[가-힣]` (code points 0xAC00 to
0xD7A3). -/
def isHangul (c : Char) : Bool := 0xAC00 ≤ c.toNat && c.toNat ≤ 0xD7A3

/-- A Python regex word character, restricted to the character classes the
titles exercise: ASCII alphanumerics, underscore, and Hangul syllables. -/
def isWordChar (c : Char) : Bool := c.isAlphanum || c = '_' || isHangul c

/-- `re.sub(r'[^\w\s#]', '', title)` (line 153): keep only word characters,
whitespace and the hash sign. -/
def cleanTitle (s : List Char) : List Char :=
  s.filter (fun c => isWordChar c || c.isWhitespace || c = '#')

/-- `re.findall(r'#(\w+)', clean_title)` (line 154): non-overlapping
left-to-right matches of a hash sign followed by a maximal nonempty run of
word characters; each match contributes the captured run. -/
def findHashtags (s : List Char) : List (List Char) :=
  match s with
  | [] => []
  | c :: rest =>
    if c = '#' then
      let w := rest.takeWhile isWordChar
      if w.isEmpty then findHashtags rest
      else w :: findHashtags (rest.drop w.length)
    else findHashtags rest
termination_by s.length
decreasing_by
  all_goals simp [List.length_drop]
  omega

/-- A character matched by the class `[\w#]`. -/
def isRunChar (c : Char) : Bool := isWordChar c || c = '#'

/-- The maximal runs of `[\w#]` characters of a string, in order. -/
def splitRuns (s : List Char) : List (List Char) :=
  match s with
  | [] => []
  | c :: rest =>
    if isRunChar c then
      let run := rest.takeWhile isRunChar
      (c :: run) :: splitRuns (rest.drop run.length)
    else splitRuns rest
termination_by s.length
decreasing_by
  all_goals simp [List.length_drop]
  omega

/-- Whether a run contains at least two consecutive Hangul syllables, i.e.
whether `[가-힣]{2,}` can match inside it. -/
def hasTwoHangul : List Char → Bool
  | a :: b :: rest => (isHangul a && isHangul b) || hasTwoHangul (b :: rest)
  | _ => false

/-- `re.findall(r'[\w#]*[가-힣]{2,}[\w#]*', clean_title)` (line 156).
Since every Hangul syllable is a word character, the backtracking engine
matches exactly each maximal `[\w#]` run that contains two consecutive
Hangul syllables, and the greedy subpatterns make the match the whole
run. -/
def findKorean (s : List Char) : List (List Char) :=
  (splitRuns s).filter hasTwoHangul

/-- The tokens contributed by one title (lines 153-157): hashtag captures
followed by Korean-run matches over the cleaned title. -/
def titleWords (title : List Char) : List (List Char) :=
  findHashtags (cleanTitle title) ++ findKorean (cleanTitle title)

/-- The stop-word list of line 150. -/
def stop_words : List (List Char) :=
  ["영상".toList, "추천".toList, "비디오".toList, "Youtube".toList, "YouTube".toList,
   "보기".toList, "최신".toList, "인기".toList, "급상승".toList, "공개".toList,
   "풀영상".toList, "풀버전".toList, "공식".toList]

/-- `filtered_words` (line 159): drop stop words and tokens of length at
most one. -/
def filteredWords (titles : List (List Char)) : List (List Char) :=
  ((titles.map titleWords).flatten).filter
    (fun w => !stop_words.contains w && decide (1 < w.length))

/-- `Counter(filtered_words)[w]`: the multiplicity of a token. -/
def countOf (ws : List (List Char)) (w : List Char) : ℕ := ws.count w

/-- The keys of `Counter(filtered_words)` in dictionary insertion order,
i.e. in order of first occurrence. -/
def counterKeys (ws : List (List Char)) : List (List Char) :=
  match ws with
  | [] => []
  | w :: rest => w :: counterKeys (rest.filter (fun x => x != w))
termination_by ws.length
decreasing_by
  have := List.length_filter_le (fun x => x != w) rest
  simp
  omega

/-- The position of the first occurrence of a token in the counted list
(the token's dictionary insertion position). -/
def firstIdx (ws : List (List Char)) (w : List Char) : ℕ :=
  match ws with
  | [] => 0
  | x :: rest => if x = w then 0 else firstIdx rest w + 1

/-- The ordering used by `Counter.most_common` (line 162): descending
count, ties broken by insertion (first-occurrence) order — which is how
the stable `heapq.nlargest` underlying `most_common(n)` ranks the keys. -/
def mcLe (ws : List (List Char)) (a b : List Char) : Prop :=
  countOf ws b < countOf ws a ∨
    (countOf ws a = countOf ws b ∧ firstIdx ws a ≤ firstIdx ws b)

instance (ws : List (List Char)) : DecidableRel (mcLe ws) := fun a b => by
  unfold mcLe; infer_instance

instance (ws : List (List Char)) : IsTotal (List Char) (mcLe ws) :=
  ⟨by intro a b; unfold mcLe; omega⟩

instance (ws : List (List Char)) : IsTrans (List Char) (mcLe ws) :=
  ⟨by intro a b c; unfold mcLe; omega⟩

/-- `Counter.most_common(top_n)` (line 162). -/
def most_common (ws : List (List Char)) (top_n : ℕ) : List (List Char) :=
  (List.insertionSort (mcLe ws) (counterKeys ws)).take top_n

/-- `extract_common_keywords` (lines 146-162): the `top_n` most frequent
filtered tokens, each rendered with a leading hash sign. -/
def extract_common_keywords (titles : List (List Char)) (top_n : ℕ) : List (List Char) :=
  if titles.isEmpty then []
  else (most_common (filteredWords titles) top_n).map (fun w => '#' :: w)

/-- C10: the BTI computation is the identity on the absolute-index series;
the Brand Trend Index attached to the main series is exactly the normalized
absolute index with no further transformation. -/
theorem bti_identity_claim (xs : List Fl) : calculate_bti xs = xs := rfl

/-- C6: on the empty video list `calculate_spread_coefficient` returns the
explicit all-zero tuple (spread coefficient, average weighted views, total
views, average views), and the guarded version reports no error there. -/
theorem empty_input_zero_claim :
    calculate_spread_coefficient [] = (0, 0, 0, 0) ∧
      calculate_spread_coefficient_checked [] = some (0, 0, 0, 0) := by
  constructor <;> rfl

/-- C2 (code defect): `calculate_absolute_index` checks nothing before the
division of line 222.  With an all-zero reference series, or with no
reference series at all, `ref_max` stays `0` and the function silently
yields infinity for a positive main ratio (NaN for a zero one) instead of
failing with a distinct degenerate-reference or missing-reference error. -/
theorem absolute_index_silent_inf :
    calculate_absolute_index [50, 0] [[0, 0, 0]] = [Fl.inf, Fl.nan] ∧
      calculate_absolute_index [50] [] = [Fl.inf] := by
  decide

/-- C3 (counterexample): `calculate_combined_index` does not honour a
caller-specified window.  With spread score 5, series `[0, 100]` and
requested window 1, the spec formula gives `(50 + 100)/2 = 75` while the
code, which averages the whole series, returns `(50 + 50)/2 = 50`. -/
theorem combined_index_window_counterexample :
    calculate_combined_index 5 [0, 100] ≠ (5 * 10 + windowMeanSpec [0, 100] 1) / 2 := by
  norm_num [calculate_combined_index, windowMeanSpec, seriesMean, pdTail]

/-- C3 (amended): `calculate_combined_index` takes no window parameter and
always averages the entire absolute-index series (its window is
`tail(len(bti_df))`); it returns `(spreadScore * 10 + mean of all points)/2`,
which agrees with the claimed last-`window` mean exactly when the window
covers the whole series. -/
theorem combined_index_whole_series (sc : ℚ) (xs : List ℚ) (w : ℕ)
    (hw : xs.length ≤ w) :
    calculate_combined_index sc xs = (sc * 10 + seriesMean xs) / 2 ∧
      calculate_combined_index sc xs = (sc * 10 + windowMeanSpec xs w) / 2 := by
  have h1 : pdTail xs xs.length = xs := by simp [pdTail]
  have h2 : xs.drop (xs.length - w) = xs := by
    rw [Nat.sub_eq_zero_of_le hw, List.drop_zero]
  exact ⟨by rw [calculate_combined_index, h1],
         by rw [calculate_combined_index, h1, windowMeanSpec, h2]⟩

/-- C3 witness: the amended statement at spread score 5, the one-point
series `[62.5]` and window 1, where the combined index is 56.25. -/
theorem combined_index_whole_series_witness :
    ([(125 : ℚ)/2].length ≤ 1) ∧
      (calculate_combined_index 5 [125/2] = (5 * 10 + seriesMean [125/2]) / 2 ∧
        calculate_combined_index 5 [125/2] = (5 * 10 + windowMeanSpec [125/2] 1) / 2) ∧
      calculate_combined_index 5 [125/2] = 225/4 :=
  ⟨by decide, combined_index_whole_series 5 [125/2] 1 (by decide),
   by norm_num [calculate_combined_index, seriesMean, pdTail]⟩

/-- Unrolling the accumulation loop: the weighted total is the sum of the
per-record weighted views. -/
theorem spreadFold_go (videos : List Video) (init : ℚ × ℕ) :
    (videos.foldl (fun acc v => (acc.1 + weighted_views v, acc.2 + v.viewCount)) init).1
      = init.1 + (videos.map weighted_views).sum := by
  induction videos generalizing init with
  | nil => simp
  | cons v vs ih => simp [ih]; ring

theorem spreadFold_fst (videos : List Video) :
    (spreadFold videos).1 = (videos.map weighted_views).sum := by
  rw [spreadFold, spreadFold_go]; ring

/-- C5: per-record engagement is `0` for zero views and otherwise the
capped like-comment ratio, weighted views are `views * (1 + engagement)`,
and the returned average weighted views is the sum of weighted views
divided by the record count; the record with 100 views, 200 likes and 0
comments has engagement exactly 0.45 and weighted views 145. -/
theorem engagement_aggregator_claim (videos : List Video) (h : videos ≠ []) :
    (∀ v ∈ videos,
        engagement v =
          (if v.viewCount = 0 then 0
           else min (45/100) (((v.likeCount : ℚ) + (v.commentCount : ℚ)) / (v.viewCount : ℚ))) ∧
        weighted_views v = (v.viewCount : ℚ) * (1 + engagement v)) ∧
    (calculate_spread_coefficient videos).2.1 =
      (videos.map weighted_views).sum / (videos.length : ℚ) ∧
    engagement ⟨"", "", "", "", 100, 200, 0⟩ = 45/100 ∧
    weighted_views ⟨"", "", "", "", 100, 200, 0⟩ = 145 := by
  refine ⟨fun v _ => ⟨?_, rfl⟩, ?_, ?_, ?_⟩
  · rcases Nat.eq_zero_or_pos v.viewCount with h0 | h0
    · simp [engagement, h0]
    · simp [engagement, h0, Nat.pos_iff_ne_zero.mp h0]
  · unfold calculate_spread_coefficient
    rw [if_neg h]
    simp [spreadFold_fst]
  · norm_num [engagement, min_def]
  · norm_num [weighted_views, engagement, min_def]

/-- C5 witness: the claim instantiated at the single record with 100 views,
200 likes and 0 comments. -/
theorem engagement_aggregator_witness :
    ([(⟨"", "", "", "", 100, 200, 0⟩ : Video)] ≠ []) ∧
      ((∀ v ∈ [(⟨"", "", "", "", 100, 200, 0⟩ : Video)],
          engagement v =
            (if v.viewCount = 0 then 0
             else min (45/100) (((v.likeCount : ℚ) + (v.commentCount : ℚ)) / (v.viewCount : ℚ))) ∧
          weighted_views v = (v.viewCount : ℚ) * (1 + engagement v)) ∧
        (calculate_spread_coefficient [(⟨"", "", "", "", 100, 200, 0⟩ : Video)]).2.1 =
          ([(⟨"", "", "", "", 100, 200, 0⟩ : Video)].map weighted_views).sum /
            (([(⟨"", "", "", "", 100, 200, 0⟩ : Video)].length : ℚ)) ∧
        engagement ⟨"", "", "", "", 100, 200, 0⟩ = 45/100 ∧
        weighted_views ⟨"", "", "", "", 100, 200, 0⟩ = 145) :=
  ⟨by simp, engagement_aggregator_claim _ (by simp)⟩

theorem foldl_max_init_le (xs : List ℚ) (x : ℚ) : x ≤ xs.foldl max x := by
  induction xs generalizing x with
  | nil => exact le_refl x
  | cons y ys ih => exact le_trans (le_max_left x y) (ih (max x y))

theorem mem_le_foldl_max (xs : List ℚ) (x q : ℚ) (hq : q ∈ xs) : q ≤ xs.foldl max x := by
  induction xs generalizing x with
  | nil => cases hq
  | cons y ys ih =>
    rcases List.mem_cons.mp hq with h | h
    · subst h
      exact le_trans (le_max_right x q) (foldl_max_init_le ys _)
    · exact ih _ h

theorem foldl_max_mem (xs : List ℚ) (x : ℚ) : xs.foldl max x = x ∨ xs.foldl max x ∈ xs := by
  induction xs generalizing x with
  | nil => exact Or.inl rfl
  | cons y ys ih =>
    rw [List.foldl_cons]
    rcases ih (max x y) with h | h
    · rcases max_cases x y with ⟨h1, _⟩ | ⟨h1, _⟩
      · exact Or.inl (h.trans h1)
      · exact Or.inr (List.mem_cons.mpr (Or.inl (h.trans h1)))
    · exact Or.inr (List.mem_cons.mpr (Or.inr h))

/-- `Series.max()` bounds every element of a column. -/
theorem le_seriesMax {r : List ℚ} {q : ℚ} (hq : q ∈ r) : q ≤ seriesMax r := by
  cases r with
  | nil => cases hq
  | cons x xs =>
    rcases List.mem_cons.mp hq with h | h
    · subst h; exact foldl_max_init_le xs q
    · exact mem_le_foldl_max xs x q h

/-- `Series.max()` of a nonempty column is attained. -/
theorem seriesMax_mem {r : List ℚ} (h : r ≠ []) : seriesMax r ∈ r := by
  cases r with
  | nil => exact absurd rfl h
  | cons x xs =>
    rcases foldl_max_mem xs x with h1 | h1
    · rw [seriesMax, h1]; exact List.mem_cons_self x xs
    · exact List.mem_cons_of_mem _ h1

theorem refFold_init_le (refs : List (List ℚ)) (a : ℚ) :
    a ≤ refs.foldl (fun acc s => max acc (seriesMax s)) a := by
  induction refs generalizing a with
  | nil => exact le_refl a
  | cons s ss ih => exact le_trans (le_max_left a (seriesMax s)) (ih _)

theorem seriesMax_le_refFold (refs : List (List ℚ)) (a : ℚ) {r : List ℚ} (hr : r ∈ refs) :
    seriesMax r ≤ refs.foldl (fun acc s => max acc (seriesMax s)) a := by
  induction refs generalizing a with
  | nil => cases hr
  | cons s ss ih =>
    rcases List.mem_cons.mp hr with h | h
    · subst h
      exact le_trans (le_max_right a (seriesMax r)) (refFold_init_le ss _)
    · exact ih _ h

theorem refFold_mem (refs : List (List ℚ)) (a : ℚ) :
    refs.foldl (fun acc s => max acc (seriesMax s)) a = a ∨
      ∃ r ∈ refs, refs.foldl (fun acc s => max acc (seriesMax s)) a = seriesMax r := by
  induction refs generalizing a with
  | nil => exact Or.inl rfl
  | cons s ss ih =>
    rw [List.foldl_cons]
    rcases ih (max a (seriesMax s)) with h | ⟨r, hr, hrs⟩
    · rcases max_cases a (seriesMax s) with ⟨h1, _⟩ | ⟨h1, _⟩
      · exact Or.inl (h.trans h1)
      · exact Or.inr ⟨s, List.mem_cons_self s ss, h.trans h1⟩
    · exact Or.inr ⟨r, List.mem_cons_of_mem _ hr, hrs⟩

/-- C7: for a nonempty list of nonempty, nonnegative reference series not
all zero, `calculate_absolute_index` computes `ref_max` as the maximum over
all reference series of the maximum ratio within each series (a positive
value attained in some series) and maps every main-series point to the
finite value `(ratio / ref_max) * 100`. -/
theorem absolute_index_claim (main : List ℚ) (refs : List (List ℚ))
    (_hrefs : refs ≠ []) (hne : ∀ r ∈ refs, r ≠ [])
    (_hnn : ∀ r ∈ refs, ∀ q ∈ r, 0 ≤ q)
    (hpos : ∃ r ∈ refs, ∃ q ∈ r, 0 < q) :
    ∃ M : ℚ, 0 < M ∧ (∀ r ∈ refs, ∀ q ∈ r, q ≤ M) ∧ (∃ r ∈ refs, M ∈ r) ∧
      calculate_absolute_index main refs = main.map (fun x => Fl.fin (x / M * 100)) := by
  obtain ⟨r0, hr0, q0, hq0, hq0pos⟩ := hpos
  refine ⟨refs.foldl (fun acc s => max acc (seriesMax s)) 0, ?_, ?_, ?_, ?_⟩
  · exact lt_of_lt_of_le hq0pos (le_trans (le_seriesMax hq0) (seriesMax_le_refFold refs 0 hr0))
  · exact fun r hr q hq => le_trans (le_seriesMax hq) (seriesMax_le_refFold refs 0 hr)
  · rcases refFold_mem refs 0 with h | ⟨r, hr, hrM⟩
    · have hMpos : (0:ℚ) < refs.foldl (fun acc s => max acc (seriesMax s)) 0 :=
        lt_of_lt_of_le hq0pos (le_trans (le_seriesMax hq0) (seriesMax_le_refFold refs 0 hr0))
      rw [h] at hMpos
      exact absurd hMpos (lt_irrefl 0)
    · exact ⟨r, hr, hrM ▸ seriesMax_mem (hne r hr)⟩
  · have hMpos : (0:ℚ) < refs.foldl (fun acc s => max acc (seriesMax s)) 0 :=
      lt_of_lt_of_le hq0pos (le_trans (le_seriesMax hq0) (seriesMax_le_refFold refs 0 hr0))
    unfold calculate_absolute_index
    refine List.map_congr_left (fun x _ => ?_)
    rw [flDiv, if_neg (ne_of_gt hMpos)]
    rfl

/-- C7 witness: main ratio 50 against reference series with maxima 80 and
60 gives `ref_max = 80` and absolute index 62.5. -/
theorem absolute_index_witness :
    (([[80], [60]] : List (List ℚ)) ≠ [] ∧ (∀ r ∈ ([[80], [60]] : List (List ℚ)), r ≠ []) ∧
      (∀ r ∈ ([[80], [60]] : List (List ℚ)), ∀ q ∈ r, 0 ≤ q) ∧
      (∃ r ∈ ([[80], [60]] : List (List ℚ)), ∃ q ∈ r, 0 < q)) ∧
    (∃ M : ℚ, 0 < M ∧ (∀ r ∈ ([[80], [60]] : List (List ℚ)), ∀ q ∈ r, q ≤ M) ∧
      (∃ r ∈ ([[80], [60]] : List (List ℚ)), M ∈ r) ∧
      calculate_absolute_index [50] [[80], [60]] = [50].map (fun x => Fl.fin (x / M * 100))) ∧
    calculate_absolute_index [50] [[80], [60]] = [Fl.fin (125/2)] :=
  ⟨⟨by decide, by decide, by decide, by decide⟩,
   absolute_index_claim [50] [[80], [60]] (by decide) (by decide) (by decide) (by decide),
   by norm_num [calculate_absolute_index, seriesMax, flDiv, flMul100]⟩

theorem logb_ten_1000 : Real.logb 10 1000 = 3 := by
  have h : (1000 : ℝ) = 10 ^ (3 : ℕ) := by norm_num
  rw [h, Real.logb_pow, Real.logb_self_eq_one (by norm_num : (1:ℝ) < 10)]
  norm_num

theorem three_lt_logb_5e6 : 3 < Real.logb 10 5000000 := by
  rw [← logb_ten_1000]
  exact Real.logb_lt_logb (by norm_num) (by norm_num) (by norm_num)

theorem three_le_logb {x : ℝ} (h : 1000 < x) : 3 ≤ Real.logb 10 x := by
  rw [← logb_ten_1000]
  exact Real.logb_le_logb_of_le (by norm_num) (by norm_num) h.le

/-- The open-interval branch of the mapping is nonnegative. -/
theorem interior_nonneg {x : ℝ} (h : 1000 < x) :
    0 ≤ (Real.logb 10 x - 3) * (10 / (Real.logb 10 5000000 - 3)) := by
  have h1 := three_le_logb h
  have h2 := three_lt_logb_5e6
  have h3 : 0 < 10 / (Real.logb 10 5000000 - 3) := div_pos (by norm_num) (by linarith)
  exact mul_nonneg (by linarith) h3.le

/-- The open-interval branch of the mapping is at most ten. -/
theorem interior_le_ten {x : ℝ} (hlo : 1000 < x) (hhi : x < 5000000) :
    (Real.logb 10 x - 3) * (10 / (Real.logb 10 5000000 - 3)) ≤ 10 := by
  have h2 := three_lt_logb_5e6
  have hx : Real.logb 10 x ≤ Real.logb 10 5000000 :=
    Real.logb_le_logb_of_le (by norm_num) (by linarith) hhi.le
  have hD : (0:ℝ) < Real.logb 10 5000000 - 3 := by linarith
  calc (Real.logb 10 x - 3) * (10 / (Real.logb 10 5000000 - 3))
      ≤ (Real.logb 10 5000000 - 3) * (10 / (Real.logb 10 5000000 - 3)) :=
        mul_le_mul_of_nonneg_right (by linarith) (by positivity)
    _ = 10 := by field_simp

theorem spreadScore_nonneg (x : ℝ) : 0 ≤ spreadScore x := by
  unfold spreadScore
  split_ifs with h1 h2
  · exact le_refl 0
  · norm_num
  · exact interior_nonneg (not_le.mp h1)

theorem spreadScore_le_ten (x : ℝ) : spreadScore x ≤ 10 := by
  unfold spreadScore
  split_ifs with h1 h2
  · norm_num
  · exact le_refl 10
  · exact interior_le_ten (not_le.mp h1) (not_le.mp h2)

theorem spreadScore_mono {x y : ℝ} (hxy : x ≤ y) : spreadScore x ≤ spreadScore y := by
  by_cases hy1 : y ≤ 1000
  · have hx1 : x ≤ 1000 := le_trans hxy hy1
    simp only [spreadScore]
    rw [if_pos hx1, if_pos hy1]
  by_cases hy2 : 5000000 ≤ y
  · have hsc : spreadScore y = 10 := by
      simp only [spreadScore]
      rw [if_neg hy1, if_pos hy2]
    rw [hsc]
    exact spreadScore_le_ten x
  have hySC : spreadScore y = (Real.logb 10 y - 3) * (10 / (Real.logb 10 5000000 - 3)) := by
    simp only [spreadScore]
    rw [if_neg hy1, if_neg hy2]
  by_cases hx1 : x ≤ 1000
  · have hsc : spreadScore x = 0 := by
      simp only [spreadScore]
      rw [if_pos hx1]
    rw [hsc, hySC]
    exact interior_nonneg (not_le.mp hy1)
  · have hx2 : ¬ 5000000 ≤ x := fun hx2 => hy2 (le_trans hx2 hxy)
    have hxSC : spreadScore x = (Real.logb 10 x - 3) * (10 / (Real.logb 10 5000000 - 3)) := by
      simp only [spreadScore]
      rw [if_neg hx1, if_neg hx2]
    rw [hxSC, hySC]
    have hmono : Real.logb 10 x ≤ Real.logb 10 y :=
      Real.logb_le_logb_of_le (by norm_num) (by linarith [not_le.mp hx1]) hxy
    have hD : 0 < 10 / (Real.logb 10 5000000 - 3) :=
      div_pos (by norm_num) (by linarith [three_lt_logb_5e6])
    exact mul_le_mul_of_nonneg_right (by linarith) hD.le

/-- C1: for every nonnegative average weighted views the spread coefficient
lies in [0, 10] inclusive; inputs at or below 1000 (including exactly 1000)
give exactly 0 and inputs at or above five million (including exactly five
million) give exactly 10. -/
theorem spread_score_range_claim (x : ℝ) (_hx : 0 ≤ x) :
    0 ≤ spreadScore x ∧ spreadScore x ≤ 10 ∧
      (x ≤ 1000 → spreadScore x = 0) ∧ (5000000 ≤ x → spreadScore x = 10) := by
  refine ⟨spreadScore_nonneg x, spreadScore_le_ten x, ?_, ?_⟩
  · intro h
    simp only [spreadScore]
    rw [if_pos h]
  · intro h
    simp only [spreadScore]
    rw [if_neg (by linarith : ¬ x ≤ 1000), if_pos h]

/-- C1 witness: the claim at the two anchor points 1000 and 5000000. -/
theorem spread_score_range_witness :
    ((0:ℝ) ≤ 1000 ∧ spreadScore 1000 = 0) ∧
      ((0:ℝ) ≤ 5000000 ∧ spreadScore 5000000 = 10) :=
  ⟨⟨by norm_num, (spread_score_range_claim 1000 (by norm_num)).2.2.1 (by norm_num)⟩,
   ⟨by norm_num, (spread_score_range_claim 5000000 (by norm_num)).2.2.2 (by norm_num)⟩⟩

/-- C4: the spread coefficient is monotone nondecreasing in the average
weighted views. -/
theorem spread_score_monotone_claim (x y : ℝ) (_hx : 0 ≤ x) (hxy : x ≤ y) :
    spreadScore x ≤ spreadScore y :=
  spreadScore_mono hxy

/-- C4 witness: monotonicity at the pair (2000, 3000). -/
theorem spread_score_monotone_witness :
    (0:ℝ) ≤ 2000 ∧ (2000:ℝ) ≤ 3000 ∧ spreadScore 2000 ≤ spreadScore 3000 :=
  ⟨by norm_num, by norm_num,
   spread_score_monotone_claim 2000 3000 (by norm_num) (by norm_num)⟩

theorem safeLog10_pos {x : ℝ} (h : 0 < x) : safeLog10 x = some (Real.logb 10 x) := by
  rw [safeLog10, if_neg (not_le.mpr h)]

/-- The guarded piecewise mapping never fails: the logarithm is reached
only in the middle branch, where the argument exceeds 1000. -/
theorem spreadScoreChecked_eq (x : ℝ) : spreadScoreChecked x = some (spreadScore x) := by
  unfold spreadScoreChecked spreadScore
  split_ifs with h1 h2
  · rfl
  · rfl
  · rw [safeLog10_pos (by linarith [not_le.mp h1] : (0:ℝ) < x),
        safeLog10_pos (by norm_num : (0:ℝ) < (5000000:ℝ))]
    rfl

/-- The guarded engagement computation never fails: the division runs only
when the view count is positive. -/
theorem engagementChecked_eq (v : Video) : engagementChecked v = some (engagement v) := by
  unfold engagementChecked engagement
  split_ifs with h
  · rw [safeDivQ, if_neg (Nat.cast_ne_zero.mpr (Nat.pos_iff_ne_zero.mp h) : ((v.viewCount : ℚ)) ≠ 0)]
    rfl
  · rfl

theorem spread_foldM_eq (videos : List Video) (init : ℚ × ℕ) :
    videos.foldlM
      (fun (acc : ℚ × ℕ) v => (engagementChecked v).map
        (fun e => (acc.1 + (v.viewCount : ℚ) * (1 + e), acc.2 + v.viewCount))) init
      = some (videos.foldl (fun acc v => (acc.1 + weighted_views v, acc.2 + v.viewCount)) init) := by
  induction videos generalizing init with
  | nil => rfl
  | cons v vs ih =>
    rw [List.foldlM_cons, engagementChecked_eq, List.foldl_cons]
    exact ih _

/-- C9: the scoring pipeline is total on well-formed records: with every
division and every logarithm guarded, the guarded
`calculate_spread_coefficient` never reports an error and agrees with the
unguarded one — the per-record division runs only for positive view counts
and `log10` is evaluated only on arguments above 1000. -/
theorem scoring_total_claim (videos : List Video) :
    calculate_spread_coefficient_checked videos = some (calculate_spread_coefficient videos) := by
  unfold calculate_spread_coefficient_checked calculate_spread_coefficient
  split_ifs with h
  · rfl
  · have hlen : ((videos.length : ℚ)) ≠ 0 :=
      Nat.cast_ne_zero.mpr (Nat.pos_iff_ne_zero.mp (List.length_pos.mpr h))
    rw [spread_foldM_eq]
    show (safeDivQ (spreadFold videos).1 (videos.length : ℚ)).bind _ = _
    rw [safeDivQ, if_neg hlen]
    show (safeDivQ ((spreadFold videos).2 : ℚ) (videos.length : ℚ)).bind _ = _
    rw [safeDivQ, if_neg hlen]
    show (spreadScoreChecked _).bind _ = _
    rw [spreadScoreChecked_eq]
    rfl

/-- Distinct members of a list sit at distinct first-occurrence
positions. -/
theorem firstIdx_inj : ∀ (l : List (List Char)) (x y : List Char), x ∈ l → y ∈ l →
    firstIdx l x = firstIdx l y → x = y := by
  intro l
  induction l with
  | nil =>
    intro x y hx
    cases hx
  | cons a as ih =>
    intro x y hx hy h
    by_cases hax : a = x
    · by_cases hay : a = y
      · rw [← hax, ← hay]
      · rw [firstIdx, if_pos hax, firstIdx, if_neg hay] at h
        exact absurd h.symm (Nat.succ_ne_zero _)
    · by_cases hay : a = y
      · rw [firstIdx, if_neg hax, firstIdx, if_pos hay] at h
        exact absurd h (Nat.succ_ne_zero _)
      · rw [firstIdx, if_neg hax, firstIdx, if_neg hay] at h
        have hx' : x ∈ as := (List.mem_cons.mp hx).resolve_left (fun he => hax he.symm)
        have hy' : y ∈ as := (List.mem_cons.mp hy).resolve_left (fun he => hay he.symm)
        exact ih x y hx' hy' (Nat.succ_injective h)

/-- Every Counter key occurs among the counted words. -/
theorem counterKeys_subset (ws : List (List Char)) : ∀ w ∈ counterKeys ws, w ∈ ws := by
  induction ws using counterKeys.induct with
  | case1 =>
    intro w hw
    rw [counterKeys] at hw
    cases hw
  | case2 w rest ih =>
    intro x hx
    rw [counterKeys] at hx
    rcases List.mem_cons.mp hx with h | h
    · exact h ▸ List.mem_cons_self _ _
    · exact List.mem_cons_of_mem _ (List.mem_of_mem_filter (ih _ h))

/-- Counter keys are pairwise distinct. -/
theorem counterKeys_nodup (ws : List (List Char)) : (counterKeys ws).Nodup := by
  induction ws using counterKeys.induct with
  | case1 =>
    rw [counterKeys]
    exact List.nodup_nil
  | case2 w rest ih =>
    rw [counterKeys]
    refine List.nodup_cons.mpr ⟨?_, ih⟩
    intro hw
    have hmem := counterKeys_subset _ _ hw
    have hp := (List.mem_filter.mp hmem).2
    simp at hp

/-- Every token selected by `most_common` occurs among the counted words. -/
theorem most_common_subset {ws : List (List Char)} {n : ℕ} {w : List Char}
    (hw : w ∈ most_common ws n) : w ∈ ws :=
  counterKeys_subset ws w
    (((List.perm_insertionSort (mcLe ws) (counterKeys ws)).mem_iff).mp
      (List.take_subset n _ hw))

/-- The selected tokens are ordered by strictly descending count, ties
broken by strictly increasing first-occurrence position. -/
theorem most_common_pairwise (ws : List (List Char)) (n : ℕ) :
    (most_common ws n).Pairwise (fun a b =>
      countOf ws b < countOf ws a ∨
        (countOf ws a = countOf ws b ∧ firstIdx ws a < firstIdx ws b)) := by
  have hsorted : (List.insertionSort (mcLe ws) (counterKeys ws)).Pairwise (mcLe ws) :=
    List.sorted_insertionSort _ _
  have hnd : (List.insertionSort (mcLe ws) (counterKeys ws)).Nodup :=
    ((List.perm_insertionSort (mcLe ws) (counterKeys ws)).nodup_iff).mpr (counterKeys_nodup ws)
  have hcomb := hsorted.and hnd
  have htake : (most_common ws n).Pairwise (fun a b => mcLe ws a b ∧ a ≠ b) :=
    hcomb.sublist (List.take_sublist n _)
  refine htake.imp_of_mem ?_
  intro a b ha hb hr
  obtain ⟨hab, hne⟩ := hr
  rcases hab with h | ⟨heq, hle⟩
  · exact Or.inl h
  · refine Or.inr ⟨heq, lt_of_le_of_ne hle ?_⟩
    intro hidx
    exact hne (firstIdx_inj ws a b (most_common_subset ha) (most_common_subset hb) hidx)

/-- Every filtered word avoids the stop list and has length above one. -/
theorem filteredWords_prop {titles : List (List Char)} {w : List Char}
    (hw : w ∈ filteredWords titles) : w ∉ stop_words ∧ 1 < w.length := by
  have hp := (List.mem_filter.mp hw).2
  simp only [Bool.and_eq_true, Bool.not_eq_true', decide_eq_true_eq] at hp
  refine ⟨?_, hp.2⟩
  intro hmem
  have hc : stop_words.contains w = true := List.elem_eq_true_of_mem hmem
  rw [hp.1] at hc
  exact Bool.noConfusion hc

/-- C8: the extractor's output never exceeds the requested count; every
returned string is a filtered token rendered with a leading hash sign — in
particular never a stop word and never of length at most one — and the
underlying tokens come in order of strictly descending frequency, ties
broken by first-encountered order. -/
theorem keyword_extractor_claim (titles : List (List Char)) (n : ℕ) :
    (extract_common_keywords titles n).length ≤ n ∧
    (∀ s ∈ extract_common_keywords titles n, ∃ w,
        s = '#' :: w ∧ w ∉ stop_words ∧ 1 < w.length ∧ w ∈ filteredWords titles) ∧
    (∃ u : List (List Char), extract_common_keywords titles n = u.map (fun w => '#' :: w) ∧
      u.Pairwise (fun a b =>
        countOf (filteredWords titles) b < countOf (filteredWords titles) a ∨
          (countOf (filteredWords titles) a = countOf (filteredWords titles) b ∧
            firstIdx (filteredWords titles) a < firstIdx (filteredWords titles) b))) := by
  by_cases ht : titles.isEmpty
  · rw [extract_common_keywords, if_pos ht]
    exact ⟨Nat.zero_le n, by simp, ⟨[], by simp, List.Pairwise.nil⟩⟩
  · rw [extract_common_keywords, if_neg ht]
    refine ⟨?_, ?_, ?_⟩
    · simp only [List.length_map, most_common]
      exact List.length_take_le _ _
    · intro s hs
      obtain ⟨w, hw, rfl⟩ := List.mem_map.mp hs
      obtain ⟨h1, h2⟩ := filteredWords_prop (most_common_subset hw)
      exact ⟨w, rfl, h1, h2, most_common_subset hw⟩
    · exact ⟨most_common (filteredWords titles) n, rfl, most_common_pairwise _ n⟩

end KeywordAnalyzer
